import Mathlib

/-!
Verification of the diff classification engine of the diffviewer repository.

Strings are modelled as lists of characters. The external LCS primitives
(Diff.diffLines and Diff.diffWordsWithSpace of the diff library) are treated
as parameters that produce change parts, exactly as the specification treats
them: external collaborators characterised only by their reconstruction
guarantee. Everything built on top of them - the splitters, the pairing and
classification loops, the statistics and the token builders - is translated
from the two relevant source variants of src/components/DiffViewer:
the side-by-side variant (splitIntoLines, computeDiff) and the inline
variant (splitLines, buildTokens, computeInlineDiff, highlight).
-/

namespace DiffViewer

/-- One change part produced by the external line or word diff primitive: a
contiguous run of text with added and removed flags, mirroring the part
objects the diff library returns. -/
structure Part where
  value : List Char
  added : Bool
  removed : Bool
deriving DecidableEq

/-- Replace each CRLF pair by LF in one left-to-right pass; this is the
semantics of the global regex replace in the source splitIntoLines. -/
def normalizeNewlines : List Char → List Char
  | [] => []
  | [c] => [c]
  | c1 :: c2 :: rest =>
    if c1 = '\r' ∧ c2 = '\n' then '\n' :: normalizeNewlines rest
    else c1 :: normalizeNewlines (c2 :: rest)

/-- Split on LF, the semantics of the JavaScript string split with a newline
separator: the empty text yields one empty segment. -/
def splitOnNl : List Char → List (List Char)
  | [] => [[]]
  | c :: rest =>
    if c = '\n' then [] :: splitOnNl rest
    else
      match splitOnNl rest with
      | [] => [[c]]
      | s :: ss => (c :: s) :: ss

/-- Source: splitIntoLines of the side-by-side variant. Empty input gives no
units; CRLF is normalized to LF before splitting; a trailing empty segment
produced by a final terminator is popped. -/
def splitIntoLines (value : List Char) : List (List Char) :=
  if value = [] then []
  else
    let segments := splitOnNl (normalizeNewlines value)
    if 1 < segments.length ∧ segments.getLast? = some [] then segments.dropLast
    else segments

/-- Source: splitLines of the inline variant, a bare split on LF. -/
def splitLines (value : List Char) : List (List Char) := splitOnNl value

/-- The four classification types of a rendered line. -/
inductive DiffLineType where
  | unchanged
  | added
  | removed
  | modified
deriving DecidableEq

/-- Source: DiffStats of types.ts. -/
structure DiffStats where
  additions : Nat
  deletions : Nat
  modifications : Nat
deriving DecidableEq

/-- Source: DiffLine of the side-by-side variant - one rendered row on one
side, with a null line number on placeholder rows. -/
structure DiffLine where
  content : List Char
  type : DiffLineType
  lineNumber : Option Nat
deriving DecidableEq

/-- Source: DiffComputationResult of the side-by-side variant. -/
structure DiffComputationResult where
  original : List DiffLine
  modified : List DiffLine
  stats : DiffStats
deriving DecidableEq

/-- Lines of one run emitted with one type and sequential numbers from n:
the forEach push pattern of computeDiff. -/
def numberLines (t : DiffLineType) : List (List Char) → Nat → List DiffLine
  | [], _ => []
  | l :: ls, n => ⟨l, t, some n⟩ :: numberLines t ls (n + 1)

/-- Rows and stat increments contributed by one processed run of
computeDiff, together with the updated per-side line counters. -/
structure Emit where
  original : List DiffLine
  modified : List DiffLine
  additions : Nat
  deletions : Nat
  modifications : Nat
  oNext : Nat
  mNext : Nat

/-- The three non-paired branches of the computeDiff loop body (added,
removed, unchanged), with the placeholder rows, the zero-length special
cases and the counter updates of the source. -/
def emitPart (p : Part) (o m : Nat) : Emit :=
  if p.added then
    let addedLines := splitIntoLines p.value
    if addedLines.isEmpty then
      ⟨[⟨[], .added, none⟩], [⟨[], .added, some m⟩], 1, 0, 0, o, m + 1⟩
    else
      ⟨addedLines.map fun _ => ⟨[], .added, none⟩, numberLines .added addedLines m,
        addedLines.length, 0, 0, o, m + addedLines.length⟩
  else if p.removed then
    let removedLines := splitIntoLines p.value
    if removedLines.isEmpty then
      ⟨[⟨[], .removed, some o⟩], [⟨[], .removed, none⟩], 0, 1, 0, o + 1, m⟩
    else
      ⟨numberLines .removed removedLines o, removedLines.map fun _ => ⟨[], .removed, none⟩,
        0, removedLines.length, 0, o + removedLines.length, m⟩
  else
    let unchangedLines := splitIntoLines p.value
    ⟨numberLines .unchanged unchangedLines o, numberLines .unchanged unchangedLines m,
      0, 0, 0, o + unchangedLines.length, m + unchangedLines.length⟩

/-- The paired removed and added branch of the computeDiff loop body: every
unit of both runs is emitted as modified on its own side, and the
modifications counter grows by the larger run length with a floor of one. -/
def emitPair (p q : Part) (o m : Nat) : Emit :=
  let removedLines := splitIntoLines p.value
  let addedLines := splitIntoLines q.value
  ⟨numberLines .modified removedLines o, numberLines .modified addedLines m,
    0, 0, Nat.max (Nat.max removedLines.length addedLines.length) 1,
    o + removedLines.length, m + addedLines.length⟩

/-- Append the contribution of one loop step to the result of the remaining
runs. -/
def combine (e : Emit) (r : DiffComputationResult) : DiffComputationResult :=
  ⟨e.original ++ r.original, e.modified ++ r.modified,
    ⟨e.additions + r.stats.additions, e.deletions + r.stats.deletions,
      e.modifications + r.stats.modifications⟩⟩

/-- The main loop of computeDiff over the parts returned by the line diff
primitive, with the adjacency rule: a removed part pairs exactly when the
immediately following part is added. -/
def computeDiffLoop (parts : List Part) (o m : Nat) : DiffComputationResult :=
  match parts with
  | [] => ⟨[], [], ⟨0, 0, 0⟩⟩
  | [p] => combine (emitPart p o m) ⟨[], [], ⟨0, 0, 0⟩⟩
  | p :: q :: rest =>
    if p.removed && q.added then
      combine (emitPair p q o m)
        (computeDiffLoop rest (emitPair p q o m).oNext (emitPair p q o m).mNext)
    else
      combine (emitPart p o m)
        (computeDiffLoop (q :: rest) (emitPart p o m).oNext (emitPart p o m).mNext)

/-- Source: computeDiff of the side-by-side variant, over an abstract line
diff primitive df standing for Diff.diffLines, with the short-circuit for
two empty inputs. -/
def computeDiff (df : List Char → List Char → List Part)
    (original modified : List Char) : DiffComputationResult :=
  if original = [] ∧ modified = [] then ⟨[], [], ⟨0, 0, 0⟩⟩
  else computeDiffLoop (df original modified) 1 1

/-- The three token kinds of the inline variant. -/
inductive DiffTokenType where
  | context
  | addition
  | deletion
deriving DecidableEq

/-- Source: DiffToken of types.ts. -/
structure DiffToken where
  value : List Char
  type : DiffTokenType
deriving DecidableEq

/-- The side parameter of buildTokens. -/
inductive DiffSide where
  | left
  | right
deriving DecidableEq

/-- Source: DiffPaneLine of types.ts; the purely presentational id string of
the source (a React render key) is omitted. -/
structure DiffPaneLine where
  lineNumber : Nat
  text : List Char
  type : DiffLineType
  tokens : List DiffToken
deriving DecidableEq

/-- Source: InlineDiffResult of types.ts. -/
structure InlineDiffResult where
  left : List DiffPaneLine
  right : List DiffPaneLine
  stats : DiffStats
deriving DecidableEq

/-- Source: ensureTokens. -/
def ensureTokens (tokens : List DiffToken) : List DiffToken :=
  if tokens.length > 0 then tokens else [⟨[], .context⟩]

/-- Source: buildTokens, over an abstract word diff primitive dw standing
for Diff.diffWordsWithSpace; the map to nullable tokens followed by the
null filter of the source is the filterMap here. -/
def buildTokens (dw : List Char → List Char → List Part)
    (leftContent rightContent : List Char) (lineType : DiffLineType)
    (side : DiffSide) : List DiffToken :=
  if lineType = .modified then
    let wordDiff := dw leftContent rightContent
    let tokens := wordDiff.filterMap fun part =>
      match side with
      | .left =>
        if part.added then none
        else some ⟨part.value, if part.removed then .deletion else .context⟩
      | .right =>
        if part.removed then none
        else some ⟨part.value, if part.added then .addition else .context⟩
    ensureTokens tokens
  else
    let baseValue := match side with | .left => leftContent | .right => rightContent
    let tokenType : DiffTokenType :=
      if lineType = .added then .addition
      else if lineType = .removed then .deletion
      else .context
    ensureTokens [⟨baseValue, tokenType⟩]

/-- Rows contributed by one paired removed and added block of
computeInlineDiff, plus its addition and deletion increments. -/
structure PairEmit where
  left : List DiffPaneLine
  right : List DiffPaneLine
  additions : Nat
  deletions : Nat

/-- Rows of the leftover added positions at the end of a paired block of
computeInlineDiff: each surfaces on the right side only as an added row
counting one addition. -/
def addedRows (dw : List Char → List Char → List Part)
    (al : List (List Char)) (rn : Nat) : List DiffPaneLine :=
  match al with
  | [] => []
  | ad :: al2 =>
    ⟨rn, ad, .added, buildTokens dw [] ad .added .right⟩ :: addedRows dw al2 (rn + 1)

/-- The indexed loop over the paired removed and added block of
computeInlineDiff: positions present on both sides become modified rows on
both sides, leftover removed or added positions surface on their own side
only, counting one deletion or addition each. -/
def pairRows (dw : List Char → List Char → List Part)
    (pl al : List (List Char)) (ln rn : Nat) : PairEmit :=
  match pl, al with
  | [], al => ⟨[], addedRows dw al rn, al.length, 0⟩
  | rl :: pl2, [] =>
    let rest := pairRows dw pl2 [] (ln + 1) rn
    ⟨⟨ln, rl, .removed, buildTokens dw rl [] .removed .left⟩ :: rest.left,
      rest.right, rest.additions, rest.deletions + 1⟩
  | rl :: pl2, ad :: al2 =>
    let rest := pairRows dw pl2 al2 (ln + 1) (rn + 1)
    ⟨⟨ln, rl, .modified, buildTokens dw rl ad .modified .left⟩ :: rest.left,
      ⟨rn, ad, .modified, buildTokens dw rl ad .modified .right⟩ :: rest.right,
      rest.additions, rest.deletions⟩

/-- Numbered rows of one non-paired run of computeInlineDiff. -/
def paneLines (t : DiffLineType) (tok : List Char → List DiffToken) :
    List (List Char) → Nat → List DiffPaneLine
  | [], _ => []
  | l :: ls, n => ⟨n, l, t, tok l⟩ :: paneLines t tok ls (n + 1)

/-- Rows and stat increments of one non-paired part of computeInlineDiff,
with the updated per-side line counters. -/
structure InlineEmit where
  left : List DiffPaneLine
  right : List DiffPaneLine
  additions : Nat
  deletions : Nat
  lnNext : Nat
  rnNext : Nat

/-- The three non-paired branches of the computeInlineDiff loop body. -/
def inlineEmitPart (dw : List Char → List Char → List Part)
    (p : Part) (ln rn : Nat) : InlineEmit :=
  let partLines := splitLines p.value
  if p.added then
    ⟨[], paneLines .added (fun l => buildTokens dw [] l .added .right) partLines rn,
      partLines.length, 0, ln, rn + partLines.length⟩
  else if p.removed then
    ⟨paneLines .removed (fun l => buildTokens dw l [] .removed .left) partLines ln, [],
      0, partLines.length, ln + partLines.length, rn⟩
  else
    ⟨paneLines .unchanged (fun l => buildTokens dw l l .unchanged .left) partLines ln,
      paneLines .unchanged (fun l => buildTokens dw l l .unchanged .right) partLines rn,
      0, 0, ln + partLines.length, rn + partLines.length⟩

/-- Append the contribution of one paired block of computeInlineDiff, plus
the shared-length modification count of that block, to the result of the
remaining runs. -/
def inlinePairCombine (e : PairEmit) (shared : Nat)
    (r : InlineDiffResult) : InlineDiffResult :=
  ⟨e.left ++ r.left, e.right ++ r.right,
    ⟨e.additions + r.stats.additions, e.deletions + r.stats.deletions,
      shared + r.stats.modifications⟩⟩

/-- Append the contribution of one non-paired computeInlineDiff loop step to
the result of the remaining runs. -/
def inlineStepCombine (e : InlineEmit) (r : InlineDiffResult) : InlineDiffResult :=
  ⟨e.left ++ r.left, e.right ++ r.right,
    ⟨e.additions + r.stats.additions, e.deletions + r.stats.deletions,
      r.stats.modifications⟩⟩

/-- The main loop of computeInlineDiff over the parts of the line diff
primitive: the shared length of a paired block - the smaller of the two
unit counts - is what feeds the modifications statistic. -/
def computeInlineDiffLoop (dw : List Char → List Char → List Part)
    (parts : List Part) (ln rn : Nat) : InlineDiffResult :=
  match parts with
  | [] => ⟨[], [], ⟨0, 0, 0⟩⟩
  | [p] => inlineStepCombine (inlineEmitPart dw p ln rn) ⟨[], [], ⟨0, 0, 0⟩⟩
  | p :: q :: rest =>
    if p.removed && q.added then
      inlinePairCombine (pairRows dw (splitLines p.value) (splitLines q.value) ln rn)
        (Nat.min (splitLines p.value).length (splitLines q.value).length)
        (computeInlineDiffLoop dw rest (ln + (splitLines p.value).length)
          (rn + (splitLines q.value).length))
    else
      inlineStepCombine (inlineEmitPart dw p ln rn)
        (computeInlineDiffLoop dw (q :: rest) (inlineEmitPart dw p ln rn).lnNext
          (inlineEmitPart dw p ln rn).rnNext)

/-- Source: computeInlineDiff, over abstract line and word diff
primitives. -/
def computeInlineDiff (dw df : List Char → List Char → List Part)
    (left right : List Char) : InlineDiffResult :=
  computeInlineDiffLoop dw (df left right) 1 1

/-- HTML escaping of the catch branch of highlightSyntax in the side-by-side
variant: ampersand, less-than and greater-than. The three sequential global
replaces of the source are equivalent to this single character map, because
the first pass finishes before the later passes introduce new ampersands
and the later outputs contain no angle brackets. -/
def escapeHtmlBasic (v : List Char) : List Char :=
  v.flatMap fun c =>
    if c = '&' then ['&', 'a', 'm', 'p', ';']
    else if c = '<' then ['&', 'l', 't', ';']
    else if c = '>' then ['&', 'g', 't', ';']
    else [c]

/-- Source: escapeHtml of the inline variant, five entities. -/
def escapeHtml (v : List Char) : List Char :=
  v.flatMap fun c =>
    if c = '&' then ['&', 'a', 'm', 'p', ';']
    else if c = '<' then ['&', 'l', 't', ';']
    else if c = '>' then ['&', 'g', 't', ';']
    else if c = '"' then ['&', 'q', 'u', 'o', 't', ';']
    else if c = Char.ofNat 39 then ['&', '#', '3', '9', ';']
    else [c]

/-- The non-breaking-space markup returned for empty content. -/
def nbspMarkup : List Char := ['&', 'n', 'b', 's', 'p', ';']

/-- Source: highlightSyntax of the side-by-side variant. The try block -
grammar lookup plus Prism.highlight - is abstracted as a function returning
an Except value, and the catch branch is the match on its error case. -/
def highlightSyntax (prism : List Char → Except Unit (List Char))
    (code : List Char) : List Char :=
  if code = [] then []
  else
    match prism code with
    | .ok markup => markup
    | .error _ => escapeHtmlBasic code

/-- Source: the highlight callback of the inline variant, same abstraction
of the try block, with the non-breaking-space fast path for empty code. -/
def highlight (prism : List Char → Except Unit (List Char))
    (code : List Char) : List Char :=
  if code = [] then nbspMarkup
  else
    match prism code with
    | .ok markup => markup
    | .error _ => escapeHtml code

/-- Modelled from the claim wording of C2: the sum over adjacent removed and
added run pairs of the larger of the two unit counts, with units split the
way computeDiff splits them. -/
def specSumMaxPairs (parts : List Part) : Nat :=
  match parts with
  | [] => 0
  | [_] => 0
  | p :: q :: rest =>
    if p.removed && q.added then
      Nat.max (splitIntoLines p.value).length (splitIntoLines q.value).length
        + specSumMaxPairs rest
    else specSumMaxPairs (q :: rest)

/-- Modelled from the claim wording of C2 at the inline variant: the same
sum of larger counts, with units split the way computeInlineDiff splits
them. -/
def specSumMaxPairsInline (parts : List Part) : Nat :=
  match parts with
  | [] => 0
  | [_] => 0
  | p :: q :: rest =>
    if p.removed && q.added then
      Nat.max (splitLines p.value).length (splitLines q.value).length
        + specSumMaxPairsInline rest
    else specSumMaxPairsInline (q :: rest)

/-- The amended modification rule of the inline variant: the smaller of the
two unit counts per pair. -/
def specSumMinPairsInline (parts : List Part) : Nat :=
  match parts with
  | [] => 0
  | [_] => 0
  | p :: q :: rest =>
    if p.removed && q.added then
      Nat.min (splitLines p.value).length (splitLines q.value).length
        + specSumMinPairsInline rest
    else specSumMinPairsInline (q :: rest)

/-- A removed run of two units adjacent to an added run of one unit: the
parts Diff.diffLines produces for the inputs of sampleRemovedValue against
sampleAddedValue. -/
def sampleRemovedValue : List Char := ['a', '\n', 'b', '\n']

/-- The one-unit added side of the asymmetric sample pair. -/
def sampleAddedValue : List Char := ['c', '\n']

/-- The run list of the asymmetric sample: one removed run then one added
run, as the line diff primitive returns for the sample inputs. -/
def sampleParts : List Part :=
  [⟨sampleRemovedValue, false, true⟩, ⟨sampleAddedValue, true, false⟩]

/-- A concrete line diff primitive used at the sample inputs. -/
def sampleDf : List Char → List Char → List Part := fun _ _ => sampleParts

/-- A concrete word diff primitive: the whole left text removed, the whole
right text added. -/
def sampleDw : List Char → List Char → List Part :=
  fun a b => [⟨a, false, true⟩, ⟨b, true, false⟩]

/-- Run list for the round-trip sample: an equal run, then a paired removed
and added run, as the line diff primitive returns for x then y against
x then z. -/
def roundParts : List Part :=
  [⟨['x', '\n'], false, false⟩, ⟨['y', '\n'], false, true⟩, ⟨['z', '\n'], true, false⟩]

/-- A concrete line diff primitive used at the round-trip sample inputs. -/
def roundDf : List Char → List Char → List Part := fun _ _ => roundParts

/-- Original-side input of the round-trip sample. -/
def roundA : List Char := ['x', '\n', 'y', '\n']

/-- Modified-side input of the round-trip sample. -/
def roundB : List Char := ['x', '\n', 'z', '\n']

/-- A removed run part holding one y line. -/
def remPartY : Part := ⟨['y', '\n'], false, true⟩

/-- An equal run part holding one x line. -/
def eqPartX : Part := ⟨['x', '\n'], false, false⟩

/-- An added run part holding one z line. -/
def addPartZ : Part := ⟨['z', '\n'], true, false⟩

/-- A line diff primitive returning a single added run, as Diff.diffLines
does when the original input is empty. -/
def addOnlyDf : List Char → List Char → List Part := fun _ _ => [addPartZ]

/-- A highlighter that always throws, for exercising the catch branches. -/
def failingPrism : List Char → Except Unit (List Char) := fun _ => Except.error ()

/-! ## Lemmas about the splitters -/

theorem normalizeNewlines_cons₂ (c1 c2 : Char) (rest : List Char) :
    normalizeNewlines (c1 :: c2 :: rest) =
      if c1 = '\r' ∧ c2 = '\n' then '\n' :: normalizeNewlines rest
      else c1 :: normalizeNewlines (c2 :: rest) := rfl

theorem splitOnNl_ne_nil (u : List Char) : splitOnNl u ≠ [] := by
  induction u with
  | nil => simp [splitOnNl]
  | cons c rest ih =>
    simp only [splitOnNl]
    split
    · simp
    · split <;> simp

theorem splitOnNl_eq_single_nil {u : List Char} (h : splitOnNl u = [[]]) : u = [] := by
  cases u with
  | nil => rfl
  | cons c rest =>
    simp only [splitOnNl] at h
    split at h
    · simp at h
      exact absurd h (splitOnNl_ne_nil rest)
    · split at h <;> simp at h

theorem splitOnNl_append_nl (x y : List Char) :
    splitOnNl (x ++ '\n' :: y) = splitOnNl x ++ splitOnNl y := by
  induction x with
  | nil => simp [splitOnNl]
  | cons c x ih =>
    simp only [List.cons_append, splitOnNl, List.append_eq]
    by_cases hc : c = '\n'
    · simp [hc, ih]
    · simp only [if_neg hc]
      rw [ih]
      cases hx : splitOnNl x with
      | nil => exact absurd hx (splitOnNl_ne_nil x)
      | cons s ss => simp [hx]

theorem normalizeNewlines_eq_nil_iff (u : List Char) :
    normalizeNewlines u = [] ↔ u = [] := by
  induction u using normalizeNewlines.induct with
  | case1 => simp [normalizeNewlines]
  | case2 c => simp [normalizeNewlines]
  | case3 c1 c2 rest h ih => simp [normalizeNewlines, h]
  | case4 c1 c2 rest h ih => simp [normalizeNewlines, h]

theorem getLast_cons_ne_nil {α : Type} (c : α) {l : List α} (h : l ≠ []) :
    (c :: l).getLast? = l.getLast? := by
  cases l with
  | nil => cases h rfl
  | cons a as => simp [List.getLast?_cons_cons]

theorem normalizeNewlines_append (v w : List Char) :
    v.getLast? ≠ some '\r' →
    normalizeNewlines (v ++ w) = normalizeNewlines v ++ normalizeNewlines w := by
  induction v using normalizeNewlines.induct with
  | case1 => intro _; simp [normalizeNewlines]
  | case2 c =>
    intro hv
    have hc : c ≠ '\r' := by simpa using hv
    cases w with
    | nil => simp [normalizeNewlines]
    | cons w0 w2 =>
      have hcc : ¬(c = '\r' ∧ w0 = '\n') := fun hh => hc hh.1
      show normalizeNewlines (c :: w0 :: w2) = normalizeNewlines [c] ++ normalizeNewlines (w0 :: w2)
      rw [normalizeNewlines_cons₂, if_neg hcc]
      simp [normalizeNewlines]
  | case3 c1 c2 rest h ih =>
    intro hv
    obtain ⟨rfl, rfl⟩ := h
    have hrest : rest.getLast? ≠ some '\r' := by
      cases rest with
      | nil => simp
      | cons a as => simpa [List.getLast?_cons_cons] using hv
    rw [List.cons_append, List.cons_append, normalizeNewlines_cons₂,
      if_pos (And.intro rfl rfl), normalizeNewlines_cons₂, if_pos (And.intro rfl rfl),
      ih hrest, List.cons_append]
  | case4 c1 c2 rest h ih =>
    intro hv
    have htail : (c2 :: rest).getLast? ≠ some '\r' := by
      simpa [List.getLast?_cons_cons] using hv
    have lhs : normalizeNewlines ((c1 :: c2 :: rest) ++ w)
        = c1 :: normalizeNewlines ((c2 :: rest) ++ w) := by
      rw [show (c1 :: c2 :: rest) ++ w = c1 :: c2 :: (rest ++ w) by simp]
      rw [normalizeNewlines_cons₂, if_neg h, ← List.cons_append]
    rw [lhs, ih htail, normalizeNewlines_cons₂, if_neg h, List.cons_append]

theorem normalizeNewlines_getLast (v : List Char) :
    v.getLast? = some '\n' → (normalizeNewlines v).getLast? = some '\n' := by
  induction v using normalizeNewlines.induct with
  | case1 => intro h; simp at h
  | case2 c => intro h; simpa [normalizeNewlines] using h
  | case3 c1 c2 rest h ih =>
    intro hv
    obtain ⟨rfl, rfl⟩ := h
    rw [normalizeNewlines_cons₂, if_pos (And.intro rfl rfl)]
    cases rest with
    | nil => simp [normalizeNewlines]
    | cons a as =>
      have hlast : (a :: as).getLast? = some '\n' := by
        simpa [List.getLast?_cons_cons] using hv
      have h2 := ih hlast
      have hne : normalizeNewlines (a :: as) ≠ [] := by
        rw [Ne, normalizeNewlines_eq_nil_iff]; simp
      rw [getLast_cons_ne_nil _ hne]
      exact h2
  | case4 c1 c2 rest h ih =>
    intro hv
    have hlast : (c2 :: rest).getLast? = some '\n' := by
      simpa [List.getLast?_cons_cons] using hv
    have h2 := ih hlast
    rw [normalizeNewlines_cons₂, if_neg h]
    have hne : normalizeNewlines (c2 :: rest) ≠ [] := by
      rw [Ne, normalizeNewlines_eq_nil_iff]; simp
    rw [getLast_cons_ne_nil _ hne]
    exact h2

theorem splitIntoLines_ne_nil {v : List Char} (h : v ≠ []) : splitIntoLines v ≠ [] := by
  simp only [splitIntoLines, if_neg h]
  have hs := splitOnNl_ne_nil (normalizeNewlines v)
  split
  · next hcond =>
    have hlen := hcond.1
    intro hd
    have := List.length_dropLast (splitOnNl (normalizeNewlines v))
    rw [hd] at this
    simp at this
    omega
  · exact hs

theorem splitIntoLines_append {v : List Char} (w : List Char)
    (hv : v.getLast? = some '\n') :
    splitIntoLines (v ++ w) = splitIntoLines v ++ splitIntoLines w := by
  have hvne : v ≠ [] := by intro hh; subst hh; simp at hv
  have hnr : v.getLast? ≠ some '\r' := by rw [hv]; simp
  have hnlast : (normalizeNewlines v).getLast? = some '\n' := normalizeNewlines_getLast v hv
  have hdecomp : (normalizeNewlines v).dropLast ++ ['\n'] = normalizeNewlines v := by
    have hne : normalizeNewlines v ≠ [] := by
      intro hh; rw [hh] at hnlast; simp at hnlast
    have hgl := List.getLast?_eq_getLast (normalizeNewlines v) hne
    rw [hgl] at hnlast
    injection hnlast with hh
    rw [← hh]
    exact List.dropLast_append_getLast hne
  set u := (normalizeNewlines v).dropLast with hu
  have hsv : splitIntoLines v = splitOnNl u := by
    rw [splitIntoLines, if_neg hvne]
    simp only [← hdecomp]
    rw [show u ++ ['\n'] = u ++ '\n' :: [] from rfl, splitOnNl_append_nl]
    have hlen : 1 < (splitOnNl u ++ splitOnNl []).length := by
      have := splitOnNl_ne_nil u
      simp [splitOnNl]
      cases hsu : splitOnNl u with
      | nil => exact absurd hsu this
      | cons a as => simp
    rw [if_pos]
    · show (splitOnNl u ++ [[]]).dropLast = splitOnNl u
      exact List.dropLast_concat
    · constructor
      · simpa [splitOnNl] using hlen
      · show (splitOnNl u ++ [[]]).getLast? = some []
        exact List.getLast?_concat _
  rcases eq_or_ne w [] with rfl | hwne
  · simp [splitIntoLines]
  · have hvwne : v ++ w ≠ [] := by simp [hvne]
    have hnwne : normalizeNewlines w ≠ [] :=
      fun hh => hwne ((normalizeNewlines_eq_nil_iff w).mp hh)
    have hswne := splitOnNl_ne_nil (normalizeNewlines w)
    have hsegs : splitOnNl (normalizeNewlines (v ++ w))
        = splitOnNl u ++ splitOnNl (normalizeNewlines w) := by
      rw [normalizeNewlines_append v w hnr, ← hdecomp]
      rw [show (u ++ ['\n']) ++ normalizeNewlines w = u ++ '\n' :: normalizeNewlines w by simp]
      exact splitOnNl_append_nl _ _
    rw [splitIntoLines, if_neg hvwne]
    simp only [hsegs]
    set sw := splitOnNl (normalizeNewlines w) with hsw
    have hlast2 : (splitOnNl u ++ sw).getLast? = sw.getLast? :=
      List.getLast?_append_of_ne_nil _ hswne
    have hlen2 : 1 < (splitOnNl u ++ sw).length := by
      have h1 := splitOnNl_ne_nil u
      cases hsu : splitOnNl u with
      | nil => exact absurd hsu h1
      | cons a as =>
        cases hsw2 : sw with
        | nil => exact absurd hsw2 hswne
        | cons b bs => simp
    have hsiw : splitIntoLines w =
        if 1 < sw.length ∧ sw.getLast? = some [] then sw.dropLast else sw := by
      rw [splitIntoLines, if_neg hwne]
    by_cases hcase : sw.getLast? = some []
    · rw [if_pos ⟨hlen2, by rw [hlast2]; exact hcase⟩]
      rw [List.dropLast_append_of_ne_nil _ hswne]
      have hswlen : 1 < sw.length := by
        rcases hsw3 : sw with _ | ⟨b, bs⟩
        · exact absurd hsw3 hswne
        · cases bs with
          | nil =>
            rw [hsw3] at hcase
            simp at hcase
            subst hcase
            rw [hsw] at hsw3
            exact absurd ((normalizeNewlines_eq_nil_iff w).mp
              (splitOnNl_eq_single_nil hsw3)) hwne
          | cons b2 bs2 => simp
      rw [hsiw, if_pos ⟨hswlen, hcase⟩, hsv]
    · rw [if_neg]
      · rw [hsiw, if_neg (fun hh => hcase hh.2), hsv]
      · intro hh
        exact hcase (hlast2 ▸ hh.2)

theorem splitIntoLines_flatten (vs : List (List Char))
    (h : ∀ x ∈ vs.dropLast, x.getLast? = some '\n') :
    (vs.map splitIntoLines).flatten = splitIntoLines vs.flatten := by
  induction vs with
  | nil => simp [splitIntoLines]
  | cons v vs ih =>
    cases vs with
    | nil => simp
    | cons v2 vs2 =>
      have hv : v.getLast? = some '\n' := h v (by simp [List.dropLast_cons₂])
      have hrest : ∀ x ∈ (v2 :: vs2).dropLast, x.getLast? = some '\n' := by
        intro x hx
        exact h x (by simp [List.dropLast_cons₂]; right; exact hx)
      rw [List.map_cons, List.flatten_cons, ih hrest,
        show (v :: v2 :: vs2).flatten = v ++ (v2 :: vs2).flatten from rfl,
        splitIntoLines_append _ hv]

/-! ## Lemmas about numberLines and the computeDiff loop -/

theorem numberLines_map_content (t : DiffLineType) (ls : List (List Char)) (n : Nat) :
    (numberLines t ls n).map DiffLine.content = ls := by
  induction ls generalizing n with
  | nil => rfl
  | cons l ls ih => simp [numberLines, ih]

theorem numberLines_map_type (t : DiffLineType) (ls : List (List Char)) (n : Nat) :
    (numberLines t ls n).map DiffLine.type = List.replicate ls.length t := by
  induction ls generalizing n with
  | nil => rfl
  | cons l ls ih => simp [numberLines, ih, List.replicate_succ]

theorem numberLines_filterMap_lineNumber (t : DiffLineType) (ls : List (List Char)) (n : Nat) :
    (numberLines t ls n).filterMap DiffLine.lineNumber = List.range' n ls.length := by
  induction ls generalizing n with
  | nil => rfl
  | cons l ls ih => simp [numberLines, ih, List.range'_succ]

theorem numberLines_mem_type {t : DiffLineType} {ls : List (List Char)} {n : Nat}
    {l : DiffLine} (h : l ∈ numberLines t ls n) : l.type = t := by
  induction ls generalizing n with
  | nil => simp [numberLines] at h
  | cons x ls ih =>
    simp only [numberLines, List.mem_cons] at h
    rcases h with rfl | h
    · rfl
    · exact ih h

theorem placeholder_map_filterMap_lineNumber (t : DiffLineType) (ls : List (List Char)) :
    (ls.map fun _ => (⟨[], t, none⟩ : DiffLine)).filterMap DiffLine.lineNumber = [] := by
  induction ls with
  | nil => rfl
  | cons l ls ih => simpa using ih

theorem range'_append_one (s a b : Nat) :
    List.range' s a ++ List.range' (s + a) b = List.range' s (a + b) := by
  have := List.range'_append s a b 1
  simpa [Nat.one_mul, Nat.add_comm] using this

theorem emitPart_lineNumbers (p : Part) (o m : Nat) :
    ∃ a b, (emitPart p o m).oNext = o + a ∧ (emitPart p o m).mNext = m + b ∧
      (emitPart p o m).original.filterMap DiffLine.lineNumber = List.range' o a ∧
      (emitPart p o m).modified.filterMap DiffLine.lineNumber = List.range' m b := by
  simp only [emitPart]
  split
  · split
    · exact ⟨0, 1, rfl, rfl, by simp, by simp⟩
    · exact ⟨0, (splitIntoLines p.value).length, rfl, rfl,
        by simpa using placeholder_map_filterMap_lineNumber .added _,
        by simpa using numberLines_filterMap_lineNumber .added _ m⟩
  · split
    · split
      · exact ⟨1, 0, rfl, rfl, by simp, by simp⟩
      · exact ⟨(splitIntoLines p.value).length, 0, rfl, rfl,
          by simpa using numberLines_filterMap_lineNumber .removed _ o,
          by simpa using placeholder_map_filterMap_lineNumber .removed _⟩
    · exact ⟨(splitIntoLines p.value).length, (splitIntoLines p.value).length, rfl, rfl,
        by simpa using numberLines_filterMap_lineNumber .unchanged _ o,
        by simpa using numberLines_filterMap_lineNumber .unchanged _ m⟩

theorem emitPair_lineNumbers (p q : Part) (o m : Nat) :
    (emitPair p q o m).oNext = o + (splitIntoLines p.value).length ∧
    (emitPair p q o m).mNext = m + (splitIntoLines q.value).length ∧
    (emitPair p q o m).original.filterMap DiffLine.lineNumber
      = List.range' o (splitIntoLines p.value).length ∧
    (emitPair p q o m).modified.filterMap DiffLine.lineNumber
      = List.range' m (splitIntoLines q.value).length :=
  ⟨rfl, rfl, numberLines_filterMap_lineNumber _ _ _, numberLines_filterMap_lineNumber _ _ _⟩

theorem computeDiffLoop_lineNumbers (parts : List Part) (o m : Nat) :
    ∃ k j, (computeDiffLoop parts o m).original.filterMap DiffLine.lineNumber = List.range' o k
      ∧ (computeDiffLoop parts o m).modified.filterMap DiffLine.lineNumber = List.range' m j := by
  induction parts, o, m using computeDiffLoop.induct with
  | case1 o m => exact ⟨0, 0, by simp [computeDiffLoop], by simp [computeDiffLoop]⟩
  | case2 o m p =>
    obtain ⟨a, b, _, _, h3, h4⟩ := emitPart_lineNumbers p o m
    exact ⟨a, b, by simp [computeDiffLoop, combine, h3], by simp [computeDiffLoop, combine, h4]⟩
  | case3 o m p q rest hpq ih =>
    obtain ⟨h1, h2, h3, h4⟩ := emitPair_lineNumbers p q o m
    obtain ⟨k, j, ih1, ih2⟩ := ih
    rw [h1, h2] at ih1 ih2
    refine ⟨(splitIntoLines p.value).length + k, (splitIntoLines q.value).length + j, ?_, ?_⟩
    · rw [computeDiffLoop, if_pos hpq]
      simp only [combine, List.filterMap_append, h1, h2, h3]
      rw [ih1, range'_append_one]
    · rw [computeDiffLoop, if_pos hpq]
      simp only [combine, List.filterMap_append, h1, h2, h4]
      rw [ih2, range'_append_one]
  | case4 o m p q rest hpq ih =>
    obtain ⟨a, b, h1, h2, h3, h4⟩ := emitPart_lineNumbers p o m
    obtain ⟨k, j, ih1, ih2⟩ := ih
    rw [h1, h2] at ih1 ih2
    refine ⟨a + k, b + j, ?_, ?_⟩
    · rw [computeDiffLoop, if_neg hpq]
      simp only [combine, List.filterMap_append, h1, h2, h3]
      rw [ih1, range'_append_one]
    · rw [computeDiffLoop, if_neg hpq]
      simp only [combine, List.filterMap_append, h1, h2, h4]
      rw [ih2, range'_append_one]

/-! ## Placeholder rows of the side-by-side variant -/

theorem emitPart_original_placeholder (p : Part) (o m : Nat) :
    ∀ l ∈ (emitPart p o m).original, l.type = .added →
      l.content = [] ∧ l.lineNumber = none := by
  intro l hl hty
  simp only [emitPart] at hl
  split at hl
  · split at hl
    · simp at hl
      subst hl
      exact ⟨rfl, rfl⟩
    · simp at hl
      rcases hl with ⟨-, rfl⟩
      exact ⟨rfl, rfl⟩
  · split at hl
    · split at hl
      · simp at hl
        subst hl
        simp at hty
      · have := numberLines_mem_type hl
        rw [this] at hty
        simp at hty
    · have := numberLines_mem_type hl
      rw [this] at hty
      simp at hty

theorem emitPart_modified_placeholder (p : Part) (o m : Nat) :
    ∀ l ∈ (emitPart p o m).modified, l.type = .removed →
      l.content = [] ∧ l.lineNumber = none := by
  intro l hl hty
  simp only [emitPart] at hl
  split at hl
  · split at hl
    · simp at hl
      subst hl
      simp at hty
    · have := numberLines_mem_type hl
      rw [this] at hty
      simp at hty
  · split at hl
    · split at hl
      · simp at hl
        subst hl
        exact ⟨rfl, rfl⟩
      · simp at hl
        rcases hl with ⟨-, rfl⟩
        exact ⟨rfl, rfl⟩
    · have := numberLines_mem_type hl
      rw [this] at hty
      simp at hty

theorem computeDiffLoop_placeholders (parts : List Part) (o m : Nat) :
    (∀ l ∈ (computeDiffLoop parts o m).original, l.type = .added →
        l.content = [] ∧ l.lineNumber = none) ∧
    (∀ l ∈ (computeDiffLoop parts o m).modified, l.type = .removed →
        l.content = [] ∧ l.lineNumber = none) := by
  induction parts, o, m using computeDiffLoop.induct with
  | case1 o m =>
    constructor <;> (intro l hl; simp [computeDiffLoop] at hl)
  | case2 o m p =>
    constructor
    · intro l hl hty
      simp only [computeDiffLoop, combine, List.append_nil] at hl
      exact emitPart_original_placeholder p o m l hl hty
    · intro l hl hty
      simp only [computeDiffLoop, combine, List.append_nil] at hl
      exact emitPart_modified_placeholder p o m l hl hty
  | case3 o m p q rest hpq ih =>
    constructor
    · intro l hl hty
      rw [computeDiffLoop, if_pos hpq] at hl
      simp only [combine, List.mem_append] at hl
      rcases hl with hl | hl
      · have := numberLines_mem_type hl
        rw [this] at hty
        simp at hty
      · exact ih.1 l hl hty
    · intro l hl hty
      rw [computeDiffLoop, if_pos hpq] at hl
      simp only [combine, List.mem_append] at hl
      rcases hl with hl | hl
      · have := numberLines_mem_type hl
        rw [this] at hty
        simp at hty
      · exact ih.2 l hl hty
  | case4 o m p q rest hpq ih =>
    constructor
    · intro l hl hty
      rw [computeDiffLoop, if_neg hpq] at hl
      simp only [combine, List.mem_append] at hl
      rcases hl with hl | hl
      · exact emitPart_original_placeholder p o m l hl hty
      · exact ih.1 l hl hty
    · intro l hl hty
      rw [computeDiffLoop, if_neg hpq] at hl
      simp only [combine, List.mem_append] at hl
      rcases hl with hl | hl
      · exact emitPart_modified_placeholder p o m l hl hty
      · exact ih.2 l hl hty

/-! ## Modification statistics of both variants -/

theorem emitPart_modifications (p : Part) (o m : Nat) :
    (emitPart p o m).modifications = 0 := by
  simp only [emitPart]
  split
  · split <;> rfl
  · split
    · split <;> rfl
    · rfl

theorem computeDiffLoop_modifications (parts : List Part) (o m : Nat)
    (hne : ∀ p ∈ parts, p.value ≠ []) :
    (computeDiffLoop parts o m).stats.modifications = specSumMaxPairs parts := by
  induction parts, o, m using computeDiffLoop.induct with
  | case1 o m => simp [computeDiffLoop, specSumMaxPairs]
  | case2 o m p =>
    simp [computeDiffLoop, combine, emitPart_modifications, specSumMaxPairs]
  | case3 o m p q rest hpq ih =>
    have hp : p.value ≠ [] := hne p (by simp)
    have hr : (splitIntoLines p.value).length ≥ 1 :=
      List.length_pos.mpr (splitIntoLines_ne_nil hp)
    have hmax : Nat.max (Nat.max (splitIntoLines p.value).length
        (splitIntoLines q.value).length) 1
        = Nat.max (splitIntoLines p.value).length (splitIntoLines q.value).length :=
      Nat.max_eq_left (Nat.le_trans hr (Nat.le_max_left _ _))
    rw [computeDiffLoop, if_pos hpq]
    have ihh := ih (fun x hx => hne x (by simp [hx]))
    simp only [emitPair] at ihh
    simp only [combine, emitPair]
    rw [specSumMaxPairs, if_pos hpq, ihh, hmax]
  | case4 o m p q rest hpq ih =>
    rw [computeDiffLoop, if_neg hpq]
    simp only [combine, emitPart_modifications, Nat.zero_add]
    rw [specSumMaxPairs, if_neg hpq]
    exact ih (fun x hx => hne x (List.mem_cons_of_mem p hx))

theorem computeInlineDiffLoop_modifications (dw : List Char → List Char → List Part)
    (parts : List Part) (ln rn : Nat) :
    (computeInlineDiffLoop dw parts ln rn).stats.modifications
      = specSumMinPairsInline parts := by
  induction parts, ln, rn using computeInlineDiffLoop.induct dw with
  | case1 ln rn => simp [computeInlineDiffLoop, specSumMinPairsInline]
  | case2 ln rn p =>
    simp [computeInlineDiffLoop, inlineStepCombine, specSumMinPairsInline]
  | case3 ln rn p q rest hpq ih =>
    rw [computeInlineDiffLoop, if_pos hpq]
    simp only [inlinePairCombine]
    rw [specSumMinPairsInline, if_pos hpq, ih]
  | case4 ln rn p q rest hpq ih =>
    rw [computeInlineDiffLoop, if_neg hpq]
    simp only [inlineStepCombine]
    rw [specSumMinPairsInline, if_neg hpq, ih]

/-! ## Original-side content of the side-by-side variant -/

theorem numberLines_filter_map_content {t : DiffLineType} (ht : t ≠ DiffLineType.added)
    (ls : List (List Char)) (n : Nat) :
    (((numberLines t ls n).filter fun l => l.type ≠ DiffLineType.added).map
      DiffLine.content) = ls := by
  induction ls generalizing n with
  | nil => rfl
  | cons l ls ih => simpa [numberLines, List.filter_cons, ht] using ih (n + 1)

theorem placeholder_filter_not_added (ls : List (List Char)) :
    ((ls.map fun _ => (⟨[], .added, none⟩ : DiffLine)).filter
      fun l => l.type ≠ DiffLineType.added) = [] := by
  induction ls with
  | nil => rfl
  | cons l ls ih => simpa using ih

theorem emitPart_original_content (p : Part) (o m : Nat) (hval : p.value ≠ []) :
    (((emitPart p o m).original.filter fun l => l.type ≠ DiffLineType.added).map
        DiffLine.content)
      = if p.added then [] else splitIntoLines p.value := by
  have hsne : ¬(splitIntoLines p.value).isEmpty = true := by
    rw [List.isEmpty_iff]
    exact splitIntoLines_ne_nil hval
  simp only [emitPart]
  by_cases ha : p.added = true
  · rw [if_pos ha, if_neg hsne, if_pos ha]
    rw [placeholder_filter_not_added]
    rfl
  · rw [if_neg ha, if_neg ha]
    by_cases hr : p.removed = true
    · rw [if_pos hr, if_neg hsne]
      exact numberLines_filter_map_content (by simp) _ _
    · rw [if_neg hr]
      exact numberLines_filter_map_content (by simp) _ _

theorem computeDiffLoop_original_content (parts : List Part) (o m : Nat)
    (hne : ∀ p ∈ parts, p.value ≠ [])
    (hexc : ∀ p ∈ parts, p.added = false ∨ p.removed = false) :
    (((computeDiffLoop parts o m).original.filter fun l => l.type ≠ DiffLineType.added).map
        DiffLine.content)
      = ((parts.filter fun p => !p.added).map fun p => splitIntoLines p.value).flatten := by
  induction parts, o, m using computeDiffLoop.induct with
  | case1 o m => simp [computeDiffLoop]
  | case2 o m p =>
    have hp := hne p (by simp)
    simp only [computeDiffLoop, combine, List.append_nil]
    rw [emitPart_original_content p o m hp]
    by_cases ha : p.added = true
    · simp [ha]
    · have hb : p.added = false := by
        cases hba : p.added
        · rfl
        · exact absurd hba ha
      simp [ha, hb]
  | case3 o m p q rest hpq ih =>
    have hp : p.removed = true := by
      rcases Bool.and_eq_true_iff.mp hpq with ⟨h1, _⟩
      exact h1
    have hq : q.added = true := by
      rcases Bool.and_eq_true_iff.mp hpq with ⟨_, h2⟩
      exact h2
    have hpa : p.added = false := by
      rcases hexc p (by simp) with h | h
      · exact h
      · rw [h] at hp; cases hp
    rw [computeDiffLoop, if_pos hpq]
    simp only [combine, emitPair, List.filter_append, List.map_append]
    rw [numberLines_filter_map_content (by simp) _ _]
    have ihh := ih (fun x hx => hne x (by simp [hx])) (fun x hx => hexc x (by simp [hx]))
    simp only [emitPair] at ihh
    rw [ihh]
    simp [List.filter_cons, hpa, hq]
  | case4 o m p q rest hpq ih =>
    have hp := hne p (by simp)
    rw [computeDiffLoop, if_neg hpq]
    simp only [combine, List.filter_append, List.map_append]
    rw [emitPart_original_content p o m hp]
    have ihh := ih (fun x hx => hne x (List.mem_cons_of_mem p hx))
      (fun x hx => hexc x (List.mem_cons_of_mem p hx))
    rw [ihh]
    by_cases ha : p.added = true
    · simp [List.filter_cons, ha]
    · have hb : p.added = false := by
        cases hba : p.added
        · rfl
        · exact absurd hba ha
      simp [List.filter_cons, ha, hb]

/-! ## Shape of a paired block in both variants -/

theorem numberLines_length (t : DiffLineType) (ls : List (List Char)) (n : Nat) :
    (numberLines t ls n).length = ls.length := by
  induction ls generalizing n with
  | nil => rfl
  | cons l ls ih => simp [numberLines, ih]

theorem numberLines_getElem_type (t : DiffLineType) (ls : List (List Char)) (n k : Nat)
    (hk : k < ls.length) :
    ((numberLines t ls n)[k]?).map DiffLine.type = some t := by
  rw [← List.getElem?_map, numberLines_map_type, List.getElem?_replicate, if_pos hk]

theorem addedRows_map_type (dw : List Char → List Char → List Part)
    (al : List (List Char)) (rn : Nat) :
    (addedRows dw al rn).map DiffPaneLine.type
      = List.replicate al.length DiffLineType.added := by
  induction al generalizing rn with
  | nil => rfl
  | cons ad al2 ih => simp [addedRows, ih, List.replicate_succ]

theorem pairRows_left_types (dw : List Char → List Char → List Part)
    (pl al : List (List Char)) (ln rn : Nat) :
    (pairRows dw pl al ln rn).left.map DiffPaneLine.type
      = List.replicate (Nat.min pl.length al.length) DiffLineType.modified
        ++ List.replicate (pl.length - Nat.min pl.length al.length) DiffLineType.removed := by
  induction pl, al, ln, rn using pairRows.induct dw with
  | case1 al ln rn => simp [pairRows]
  | case2 rl pl2 ln rn ih => simp [pairRows, ih, List.replicate_succ]
  | case3 rl pl2 ad al2 ln rn ih =>
    simp [pairRows, ih, List.replicate_succ, Nat.succ_min_succ, Nat.succ_sub_succ]

theorem pairRows_right_types (dw : List Char → List Char → List Part)
    (pl al : List (List Char)) (ln rn : Nat) :
    (pairRows dw pl al ln rn).right.map DiffPaneLine.type
      = List.replicate (Nat.min pl.length al.length) DiffLineType.modified
        ++ List.replicate (al.length - Nat.min pl.length al.length) DiffLineType.added := by
  induction pl, al, ln, rn using pairRows.induct dw with
  | case1 al ln rn => simp [pairRows, addedRows_map_type]
  | case2 rl pl2 ln rn ih => simp [pairRows, ih]
  | case3 rl pl2 ad al2 ln rn ih =>
    simp [pairRows, ih, List.replicate_succ, Nat.succ_min_succ, Nat.succ_sub_succ]

theorem pairRows_left_length (dw : List Char → List Char → List Part)
    (pl al : List (List Char)) (ln rn : Nat) :
    (pairRows dw pl al ln rn).left.length = pl.length := by
  have h := congrArg List.length (pairRows_left_types dw pl al ln rn)
  simp only [List.length_map, List.length_append, List.length_replicate] at h
  rw [h]
  exact Nat.add_sub_cancel' (Nat.min_le_left pl.length al.length)

theorem pairRows_right_length (dw : List Char → List Char → List Part)
    (pl al : List (List Char)) (ln rn : Nat) :
    (pairRows dw pl al ln rn).right.length = al.length := by
  have h := congrArg List.length (pairRows_right_types dw pl al ln rn)
  simp only [List.length_map, List.length_append, List.length_replicate] at h
  rw [h]
  exact Nat.add_sub_cancel' (Nat.min_le_right pl.length al.length)

theorem pairRows_left_getElem_type (dw : List Char → List Char → List Part)
    (pl al : List (List Char)) (ln rn k : Nat)
    (hk : k < Nat.min pl.length al.length) :
    ((pairRows dw pl al ln rn).left[k]?).map DiffPaneLine.type
      = some DiffLineType.modified := by
  rw [← List.getElem?_map, pairRows_left_types]
  rw [List.getElem?_append_left (by simpa using hk), List.getElem?_replicate, if_pos hk]

theorem pairRows_right_getElem_type (dw : List Char → List Char → List Part)
    (pl al : List (List Char)) (ln rn k : Nat)
    (hk : k < Nat.min pl.length al.length) :
    ((pairRows dw pl al ln rn).right[k]?).map DiffPaneLine.type
      = some DiffLineType.modified := by
  rw [← List.getElem?_map, pairRows_right_types]
  rw [List.getElem?_append_left (by simpa using hk), List.getElem?_replicate, if_pos hk]

/-! ## Token construction of the inline variant -/

theorem ensureTokens_mem {t : DiffToken} {ts : List DiffToken}
    (h : t ∈ ensureTokens ts) : t ∈ ts ∨ t = ⟨[], .context⟩ := by
  rw [ensureTokens] at h
  split at h
  · exact Or.inl h
  · simp at h
    exact Or.inr h

theorem ensureTokens_flatten_value (ts : List DiffToken) :
    ((ensureTokens ts).map DiffToken.value).flatten = (ts.map DiffToken.value).flatten := by
  rw [ensureTokens]
  split
  · rfl
  · next hlen =>
    have : ts = [] := by
      cases ts with
      | nil => rfl
      | cons a as => simp at hlen
    rw [this]
    rfl

theorem filterMap_left_flatten_value (parts : List Part) :
    (((parts.filterMap fun part =>
        if part.added then none
        else some (⟨part.value, if part.removed then .deletion else .context⟩ : DiffToken)).map
          DiffToken.value).flatten)
      = ((parts.filter fun p => !p.added).map Part.value).flatten := by
  induction parts with
  | nil => rfl
  | cons p parts ih =>
    by_cases ha : p.added = true
    · simp [List.filterMap_cons, List.filter_cons, ha, ih]
    · simp [List.filterMap_cons, List.filter_cons, ha, ih]

theorem filterMap_right_flatten_value (parts : List Part) :
    (((parts.filterMap fun part =>
        if part.removed then none
        else some (⟨part.value, if part.added then .addition else .context⟩ : DiffToken)).map
          DiffToken.value).flatten)
      = ((parts.filter fun p => !p.removed).map Part.value).flatten := by
  induction parts with
  | nil => rfl
  | cons p parts ih =>
    by_cases hr : p.removed = true
    · simp [List.filterMap_cons, List.filter_cons, hr, ih]
    · simp [List.filterMap_cons, List.filter_cons, hr, ih]

/-! ## Claim theorems -/

/-- C4: for every input pair, on each output side of computeDiff the
non-null lineNumber values, taken in emission order, form exactly the
sequence 1, 2, 3, up to their count, with no gaps and no repeats. -/
theorem c4_line_number_contiguity (df : List Char → List Char → List Part)
    (a b : List Char) :
    (computeDiff df a b).original.filterMap DiffLine.lineNumber
      = List.range' 1 ((computeDiff df a b).original.filterMap DiffLine.lineNumber).length
    ∧ (computeDiff df a b).modified.filterMap DiffLine.lineNumber
      = List.range' 1 ((computeDiff df a b).modified.filterMap DiffLine.lineNumber).length := by
  rw [computeDiff]
  split
  · simp
  · obtain ⟨k, j, h1, h2⟩ := computeDiffLoop_lineNumbers (df a b) 1 1
    constructor
    · rw [h1, List.length_range']
    · rw [h2, List.length_range']

/-- C10: in the aligned layout of computeDiff, every original-side line of
type added and every modified-side line of type removed is a placeholder:
empty content and a null line number, consuming no sequential number. -/
theorem c10_placeholder_rows (df : List Char → List Char → List Part)
    (a b : List Char) :
    (∀ l ∈ (computeDiff df a b).original, l.type = DiffLineType.added →
      l.content = [] ∧ l.lineNumber = none)
    ∧ (∀ l ∈ (computeDiff df a b).modified, l.type = DiffLineType.removed →
      l.content = [] ∧ l.lineNumber = none) := by
  rw [computeDiff]
  split
  · constructor <;> (intro l hl; simp at hl)
  · exact computeDiffLoop_placeholders (df a b) 1 1

/-- Witness for C10 at a concrete pure insertion. -/
theorem c10_placeholder_rows_witness :
    (⟨[], DiffLineType.added, none⟩ : DiffLine)
        ∈ (computeDiff addOnlyDf [] ['z', '\n']).original
    ∧ ((⟨[], DiffLineType.added, none⟩ : DiffLine).content = []
        ∧ (⟨[], DiffLineType.added, none⟩ : DiffLine).lineNumber = none) :=
  ⟨by decide, (c10_placeholder_rows addOnlyDf [] ['z', '\n']).1 _ (by decide) (by decide)⟩

/-- C7: the line splitter returns the empty sequence on empty input, treats
a CRLF terminator exactly like a LF terminator, and drops the final empty
segment produced solely by a trailing terminator, keeping interior empty
segments. -/
theorem c7_splitter_policies :
    splitIntoLines [] = []
    ∧ (∀ v : List Char, v.getLast? ≠ some '\r' →
        splitIntoLines (v ++ ['\r', '\n']) = splitIntoLines (v ++ ['\n']))
    ∧ (∀ v : List Char, v.getLast? ≠ some '\r' →
        splitIntoLines (v ++ ['\n']) = splitOnNl (normalizeNewlines v)) := by
  refine ⟨by simp [splitIntoLines], ?_, ?_⟩
  · intro v hv
    have hcr : normalizeNewlines ['\r', '\n'] = ['\n'] := by decide
    have hlf : normalizeNewlines ['\n'] = ['\n'] := by decide
    have h1 : normalizeNewlines (v ++ ['\r', '\n'])
        = normalizeNewlines v ++ ['\n'] := by
      rw [normalizeNewlines_append v _ hv, hcr]
    have h2 : normalizeNewlines (v ++ ['\n']) = normalizeNewlines v ++ ['\n'] := by
      rw [normalizeNewlines_append v _ hv, hlf]
    have hne1 : v ++ ['\r', '\n'] ≠ [] := by simp
    have hne2 : v ++ ['\n'] ≠ [] := by simp
    simp only [splitIntoLines, if_neg hne1, if_neg hne2, h1, h2]
  · intro v hv
    have hlf : normalizeNewlines ['\n'] = ['\n'] := by decide
    have h2 : normalizeNewlines (v ++ ['\n']) = normalizeNewlines v ++ ['\n'] := by
      rw [normalizeNewlines_append v _ hv, hlf]
    have hne2 : v ++ ['\n'] ≠ [] := by simp
    simp only [splitIntoLines, if_neg hne2, h2]
    rw [show normalizeNewlines v ++ ['\n'] = normalizeNewlines v ++ '\n' :: [] from rfl,
      splitOnNl_append_nl]
    have hsne := splitOnNl_ne_nil (normalizeNewlines v)
    have hlen : 1 < (splitOnNl (normalizeNewlines v) ++ splitOnNl []).length := by
      cases hsu : splitOnNl (normalizeNewlines v) with
      | nil => exact absurd hsu hsne
      | cons s ss => simp [splitOnNl]
    rw [if_pos ⟨hlen, by
      show (splitOnNl (normalizeNewlines v) ++ [[]]).getLast? = some []
      exact List.getLast?_concat _⟩]
    show (splitOnNl (normalizeNewlines v) ++ [[]]).dropLast = _
    exact List.dropLast_concat

/-- Witness for C7 at concrete inputs. -/
theorem c7_splitter_policies_witness :
    (['a'].getLast? ≠ some '\r')
    ∧ splitIntoLines (['a'] ++ ['\r', '\n']) = splitIntoLines (['a'] ++ ['\n'])
    ∧ splitIntoLines (['a'] ++ ['\n']) = splitOnNl (normalizeNewlines ['a']) :=
  ⟨by decide, c7_splitter_policies.2.1 ['a'] (by decide),
    c7_splitter_policies.2.2 ['a'] (by decide)⟩

/-- C9: when the per-unit highlighter throws, both variants catch the
exception and render the HTML-escaped raw text of the unit instead. -/
theorem c9_highlight_fallback (prism : List Char → Except Unit (List Char))
    (code : List Char) (hne : code ≠ []) (herr : prism code = Except.error ()) :
    highlightSyntax prism code = escapeHtmlBasic code
    ∧ highlight prism code = escapeHtml code := by
  constructor
  · rw [highlightSyntax, if_neg hne, herr]
  · rw [highlight, if_neg hne, herr]

/-- Witness for C9 at a concrete throwing highlighter. -/
theorem c9_highlight_fallback_witness :
    (['<'] ≠ ([] : List Char))
    ∧ failingPrism ['<'] = Except.error ()
    ∧ highlightSyntax failingPrism ['<'] = escapeHtmlBasic ['<'] :=
  ⟨by decide, rfl, (c9_highlight_fallback failingPrism ['<'] (by decide) rfl).1⟩

/-- C1 counterexample: at the concrete adjacent pair of a two-unit removed
run and a one-unit added run, computeDiff does not emit min(r, a) = 1
modified position with one leftover removed line on the original side - it
emits two modified positions and no removed line. -/
theorem c1_pairing_counterexample :
    ¬(((computeDiff sampleDf sampleRemovedValue sampleAddedValue).original.countP
          (fun l => l.type = DiffLineType.modified))
        = Nat.min (splitIntoLines sampleRemovedValue).length
            (splitIntoLines sampleAddedValue).length
      ∧ ((computeDiff sampleDf sampleRemovedValue sampleAddedValue).original.countP
          (fun l => l.type = DiffLineType.removed))
        = (splitIntoLines sampleRemovedValue).length
          - Nat.min (splitIntoLines sampleRemovedValue).length
              (splitIntoLines sampleAddedValue).length) := by
  decide

/-- C1 (corrected): only computeInlineDiff implements min-based pairing -
its paired block has exactly min(r, a) modified rows on each side, the
leftover removed rows on the left side only and the leftover added rows on
the right side only - while computeDiff emits every unit of both runs as
modified on its own side with no leftover removed or added rows. -/
theorem c1_pairing_amended :
    (∀ dw pl al ln rn,
      (pairRows dw pl al ln rn).left.map DiffPaneLine.type
        = List.replicate (Nat.min pl.length al.length) DiffLineType.modified
          ++ List.replicate (pl.length - Nat.min pl.length al.length) DiffLineType.removed
      ∧ (pairRows dw pl al ln rn).right.map DiffPaneLine.type
        = List.replicate (Nat.min pl.length al.length) DiffLineType.modified
          ++ List.replicate (al.length - Nat.min pl.length al.length) DiffLineType.added)
    ∧ (∀ p q o m,
      (emitPair p q o m).original.map DiffLine.type
        = List.replicate (splitIntoLines p.value).length DiffLineType.modified
      ∧ (emitPair p q o m).modified.map DiffLine.type
        = List.replicate (splitIntoLines q.value).length DiffLineType.modified)
    ∧ (∀ dw p q rest ln rn, (p.removed && q.added) = true →
      computeInlineDiffLoop dw (p :: q :: rest) ln rn
        = inlinePairCombine (pairRows dw (splitLines p.value) (splitLines q.value) ln rn)
            (Nat.min (splitLines p.value).length (splitLines q.value).length)
            (computeInlineDiffLoop dw rest (ln + (splitLines p.value).length)
              (rn + (splitLines q.value).length)))
    ∧ (∀ p q rest o m, (p.removed && q.added) = true →
      computeDiffLoop (p :: q :: rest) o m
        = combine (emitPair p q o m)
            (computeDiffLoop rest (emitPair p q o m).oNext (emitPair p q o m).mNext)) := by
  refine ⟨fun dw pl al ln rn => ⟨pairRows_left_types dw pl al ln rn,
      pairRows_right_types dw pl al ln rn⟩,
    fun p q o m => ⟨numberLines_map_type _ _ _, numberLines_map_type _ _ _⟩,
    fun dw p q rest ln rn hpq => ?_, fun p q rest o m hpq => ?_⟩
  · rw [computeInlineDiffLoop, if_pos hpq]
  · rw [computeDiffLoop, if_pos hpq]

/-- Witness for C1 (corrected) at the concrete asymmetric pair. -/
theorem c1_pairing_amended_witness :
    ((Part.mk sampleRemovedValue false true).removed
        && (Part.mk sampleAddedValue true false).added) = true
    ∧ computeDiffLoop sampleParts 1 1
      = combine (emitPair ⟨sampleRemovedValue, false, true⟩ ⟨sampleAddedValue, true, false⟩ 1 1)
          (computeDiffLoop []
            (emitPair ⟨sampleRemovedValue, false, true⟩ ⟨sampleAddedValue, true, false⟩ 1 1).oNext
            (emitPair ⟨sampleRemovedValue, false, true⟩ ⟨sampleAddedValue, true, false⟩ 1 1).mNext) :=
  ⟨by decide, c1_pairing_amended.2.2.2 ⟨sampleRemovedValue, false, true⟩
    ⟨sampleAddedValue, true, false⟩ [] 1 1 (by decide)⟩

/-- C2 counterexample: at the same concrete adjacent pair, the inline
variant adds min(r, a) to the modifications statistic, not max(r, a): the
statistic is 2 while the claimed sum of larger counts is 3. -/
theorem c2_modifications_counterexample :
    ¬((computeInlineDiff sampleDw sampleDf sampleRemovedValue sampleAddedValue).stats.modifications
      = specSumMaxPairsInline (sampleDf sampleRemovedValue sampleAddedValue)) := by
  decide

/-- C2 (corrected): the modifications statistic of computeDiff is the sum
over adjacent removed and added pairs of the larger unit count (for runs
with nonempty text, where the per-pair floor of one is vacuous), while the
modifications statistic of computeInlineDiff is the sum of the smaller unit
count per pair. -/
theorem c2_modifications_amended :
    (∀ parts o m, (∀ p ∈ parts, p.value ≠ []) →
      (computeDiffLoop parts o m).stats.modifications = specSumMaxPairs parts)
    ∧ (∀ dw parts ln rn,
      (computeInlineDiffLoop dw parts ln rn).stats.modifications
        = specSumMinPairsInline parts) :=
  ⟨fun parts o m hne => computeDiffLoop_modifications parts o m hne,
    fun dw parts ln rn => computeInlineDiffLoop_modifications dw parts ln rn⟩

/-- Witness for C2 (corrected) at the concrete asymmetric pair. -/
theorem c2_modifications_amended_witness :
    (∀ p ∈ sampleParts, p.value ≠ [])
    ∧ (computeDiffLoop sampleParts 1 1).stats.modifications = specSumMaxPairs sampleParts :=
  ⟨by decide, c2_modifications_amended.1 sampleParts 1 1 (by decide)⟩

/-- C3: inside an adjacent removed and added pair, every shared logical
position is classified modified on both sides at once in both variants:
original and modified rows at that position both carry type modified. -/
theorem c3_modified_on_both_sides :
    (∀ p q rest o m k, (p.removed && q.added) = true →
      k < Nat.min (splitIntoLines p.value).length (splitIntoLines q.value).length →
      ((computeDiffLoop (p :: q :: rest) o m).original[k]?).map DiffLine.type
          = some DiffLineType.modified
      ∧ ((computeDiffLoop (p :: q :: rest) o m).modified[k]?).map DiffLine.type
          = some DiffLineType.modified)
    ∧ (∀ dw p q rest ln rn k, (p.removed && q.added) = true →
      k < Nat.min (splitLines p.value).length (splitLines q.value).length →
      ((computeInlineDiffLoop dw (p :: q :: rest) ln rn).left[k]?).map DiffPaneLine.type
          = some DiffLineType.modified
      ∧ ((computeInlineDiffLoop dw (p :: q :: rest) ln rn).right[k]?).map DiffPaneLine.type
          = some DiffLineType.modified) := by
  constructor
  · intro p q rest o m k hpq hk
    rw [computeDiffLoop, if_pos hpq]
    simp only [combine, emitPair]
    constructor
    · rw [List.getElem?_append_left (by
        rw [numberLines_length]
        exact Nat.lt_of_lt_of_le hk (Nat.min_le_left _ _))]
      exact numberLines_getElem_type _ _ _ _
        (Nat.lt_of_lt_of_le hk (Nat.min_le_left _ _))
    · rw [List.getElem?_append_left (by
        rw [numberLines_length]
        exact Nat.lt_of_lt_of_le hk (Nat.min_le_right _ _))]
      exact numberLines_getElem_type _ _ _ _
        (Nat.lt_of_lt_of_le hk (Nat.min_le_right _ _))
  · intro dw p q rest ln rn k hpq hk
    rw [computeInlineDiffLoop, if_pos hpq]
    simp only [inlinePairCombine]
    constructor
    · rw [List.getElem?_append_left (by
        rw [pairRows_left_length]
        exact Nat.lt_of_lt_of_le hk (Nat.min_le_left _ _))]
      exact pairRows_left_getElem_type dw _ _ _ _ _ hk
    · rw [List.getElem?_append_left (by
        rw [pairRows_right_length]
        exact Nat.lt_of_lt_of_le hk (Nat.min_le_right _ _))]
      exact pairRows_right_getElem_type dw _ _ _ _ _ hk

/-- Witness for C3 at the concrete asymmetric pair. -/
theorem c3_modified_on_both_sides_witness :
    ((computeDiffLoop sampleParts 1 1).original[0]?).map DiffLine.type
        = some DiffLineType.modified
    ∧ ((computeInlineDiffLoop sampleDw sampleParts 1 1).left[0]?).map DiffPaneLine.type
        = some DiffLineType.modified :=
  ⟨(c3_modified_on_both_sides.1 ⟨sampleRemovedValue, false, true⟩
      ⟨sampleAddedValue, true, false⟩ [] 1 1 0 (by decide) (by decide)).1,
    (c3_modified_on_both_sides.2 sampleDw ⟨sampleRemovedValue, false, true⟩
      ⟨sampleAddedValue, true, false⟩ [] 1 1 0 (by decide) (by decide)).1⟩

/-- C5: assuming the side reconstruction guarantee of the line diff
primitive - runs are nonempty, flags exclusive, non-added run values
concatenate to the original text, and every non-added run except the last
ends with a terminator - concatenating in order the content of all
original-side lines whose type is unchanged, removed or modified yields
exactly the line-split form of the original text. -/
theorem c5_roundtrip_reconstruction (df : List Char → List Char → List Part)
    (a b : List Char)
    (hne : ∀ p ∈ df a b, p.value ≠ [])
    (hexc : ∀ p ∈ df a b, p.added = false ∨ p.removed = false)
    (hrec : ((((df a b).filter fun p => !p.added).map Part.value).flatten) = a)
    (hnl : ∀ v ∈ (((df a b).filter fun p => !p.added).map Part.value).dropLast,
      v.getLast? = some '\n') :
    (((computeDiff df a b).original.filter fun l => l.type ≠ DiffLineType.added).map
      DiffLine.content) = splitIntoLines a := by
  rw [computeDiff]
  split
  · next hab =>
    obtain ⟨ha, hb⟩ := hab
    subst ha
    simp [splitIntoLines]
  · rw [computeDiffLoop_original_content (df a b) 1 1 hne hexc]
    have hfl := splitIntoLines_flatten (((df a b).filter fun p => !p.added).map Part.value) hnl
    rw [hrec] at hfl
    rw [← hfl, List.map_map]
    rfl

/-- Witness for C5 at a concrete equal, removed, added run sequence. -/
theorem c5_roundtrip_reconstruction_witness :
    (((computeDiff roundDf roundA roundB).original.filter
      fun l => l.type ≠ DiffLineType.added).map DiffLine.content) = splitIntoLines roundA :=
  c5_roundtrip_reconstruction roundDf roundA roundB (by decide) (by decide)
    (by decide) (by decide)

/-- C6: a removed run whose immediate successor is not an added run is
never paired: computeDiff processes it through the non-paired branch, all
its original-side rows carry type removed, and an added run reached later
surfaces with type added on the modified side - never as modified. -/
theorem c6_non_adjacent_never_paired :
    (∀ rem sep rest o m, sep.added = false →
      computeDiffLoop (rem :: sep :: rest) o m
        = combine (emitPart rem o m)
            (computeDiffLoop (sep :: rest) (emitPart rem o m).oNext (emitPart rem o m).mNext))
    ∧ (∀ rem o m, rem.removed = true → rem.added = false →
      ∀ l ∈ (emitPart rem o m).original, l.type = DiffLineType.removed)
    ∧ (∀ addp o m, addp.added = true →
      ∀ l ∈ (emitPart addp o m).modified, l.type = DiffLineType.added) := by
  refine ⟨fun rem sep rest o m hsep => ?_, fun rem o m hr ha l hl => ?_,
    fun addp o m ha l hl => ?_⟩
  · rw [computeDiffLoop, if_neg (by simp [hsep])]
  · have hna : ¬(rem.added = true) := by rw [ha]; exact Bool.false_ne_true
    rw [emitPart, if_neg hna, if_pos hr] at hl
    dsimp only at hl
    split at hl
    · simp at hl
      subst hl
      rfl
    · exact numberLines_mem_type hl
  · rw [emitPart, if_pos ha] at hl
    dsimp only at hl
    split at hl
    · simp at hl
      subst hl
      rfl
    · exact numberLines_mem_type hl

/-- Witness for C6: a removed run followed by an equal run is processed
unpaired and its row is typed removed. -/
theorem c6_non_adjacent_never_paired_witness :
    computeDiffLoop [remPartY, eqPartX] 1 1
      = combine (emitPart remPartY 1 1)
          (computeDiffLoop [eqPartX] (emitPart remPartY 1 1).oNext (emitPart remPartY 1 1).mNext)
    ∧ (⟨['y'], DiffLineType.removed, some 1⟩ : DiffLine).type = DiffLineType.removed :=
  ⟨c6_non_adjacent_never_paired.1 remPartY eqPartX [] 1 1 (by decide),
    c6_non_adjacent_never_paired.2.1 remPartY 1 1 (by decide) (by decide)
      ⟨['y'], DiffLineType.removed, some 1⟩ (by decide)⟩

/-- C8: for a modified line pair, the left-side token list never contains
an addition-kind token and the right-side token list never contains a
deletion-kind token; and, given the side reconstruction guarantee of the
word diff primitive, concatenating the token texts of a side reconstructs
that side of the pair. -/
theorem c8_token_invariants :
    (∀ dw lc rc, ∀ t ∈ buildTokens dw lc rc DiffLineType.modified DiffSide.left,
      t.type ≠ DiffTokenType.addition)
    ∧ (∀ dw lc rc, ∀ t ∈ buildTokens dw lc rc DiffLineType.modified DiffSide.right,
      t.type ≠ DiffTokenType.deletion)
    ∧ (∀ dw lc rc, ((((dw lc rc).filter fun p => !p.added).map Part.value).flatten) = lc →
      ((buildTokens dw lc rc DiffLineType.modified DiffSide.left).map DiffToken.value).flatten
        = lc)
    ∧ (∀ dw lc rc, ((((dw lc rc).filter fun p => !p.removed).map Part.value).flatten) = rc →
      ((buildTokens dw lc rc DiffLineType.modified DiffSide.right).map DiffToken.value).flatten
        = rc) := by
  refine ⟨fun dw lc rc t ht => ?_, fun dw lc rc t ht => ?_,
    fun dw lc rc hg => ?_, fun dw lc rc hg => ?_⟩
  · simp only [buildTokens, if_pos rfl] at ht
    rcases ensureTokens_mem ht with hmem | rfl
    · obtain ⟨part, -, hsome⟩ := List.mem_filterMap.mp hmem
      split at hsome
      · cases hsome
      · injection hsome with hsome
        subst hsome
        by_cases hrm : part.removed = true <;> simp [hrm]
    · simp
  · simp only [buildTokens, if_pos rfl] at ht
    rcases ensureTokens_mem ht with hmem | rfl
    · obtain ⟨part, -, hsome⟩ := List.mem_filterMap.mp hmem
      split at hsome
      · cases hsome
      · injection hsome with hsome
        subst hsome
        by_cases had : part.added = true <;> simp [had]
    · simp
  · have hb : buildTokens dw lc rc DiffLineType.modified DiffSide.left
        = ensureTokens ((dw lc rc).filterMap fun part =>
            if part.added then none
            else some ⟨part.value, if part.removed then .deletion else .context⟩) := rfl
    rw [hb, ensureTokens_flatten_value, filterMap_left_flatten_value (dw lc rc)]
    exact hg
  · have hb : buildTokens dw lc rc DiffLineType.modified DiffSide.right
        = ensureTokens ((dw lc rc).filterMap fun part =>
            if part.removed then none
            else some ⟨part.value, if part.added then .addition else .context⟩) := rfl
    rw [hb, ensureTokens_flatten_value, filterMap_right_flatten_value (dw lc rc)]
    exact hg

/-- Witness for C8 at a concrete word diff of one removed and one added
part. -/
theorem c8_token_invariants_witness :
    ((buildTokens sampleDw ['a', 'b'] ['c', 'd'] DiffLineType.modified
      DiffSide.left).map DiffToken.value).flatten = ['a', 'b']
    ∧ (⟨['a', 'b'], DiffTokenType.deletion⟩ : DiffToken).type ≠ DiffTokenType.addition :=
  ⟨c8_token_invariants.2.2.1 sampleDw ['a', 'b'] ['c', 'd'] (by decide),
    c8_token_invariants.1 sampleDw ['a', 'b'] ['c', 'd']
      ⟨['a', 'b'], DiffTokenType.deletion⟩ (by decide)⟩

end DiffViewer
